import Mathlib

/-!
Verification development for the gpui_router navigation engine.

This file embeds the data model and operations of the router (pattern
matcher, history stack, resolution cache, nested resolver, guard pipeline)
as executable Lean definitions translated from the Rust sources, and proves
the specification claims about them.

Rust machine integers (`usize`, `u8`) are modelled as `Nat`; the source
only uses subtraction in guarded or saturating positions, where truncated
`Nat` subtraction coincides with the Rust semantics.  Rust `HashMap`s are
modelled as association lists.  Code paths that panic in Rust (slice
indexing out of range) are modelled with `Except`.
-/

namespace GpuiRouter

/-! ## String helpers mirroring the Rust `str` operations used by the router -/

/-- Model of Rust `str::trim_start_matches(c)`: drop every leading `c`. -/
def trimStartChar (c : Char) (s : String) : String :=
  ⟨s.data.dropWhile (· == c)⟩

/-- Model of Rust `str::trim_end_matches(c)`: drop every trailing `c`. -/
def trimEndChar (c : Char) (s : String) : String :=
  ⟨(s.data.reverse.dropWhile (· == c)).reverse⟩

/-- Model of Rust `str::starts_with(prefix)`. -/
def strStarts (s pre : String) : Bool :=
  pre.data.isPrefixOf s.data

/-- Model of Rust `str::strip_prefix`: the remainder after a prefix. -/
def stripPrefixStr (s pre : String) : Option String :=
  if pre.data.isPrefixOf s.data then some ⟨s.data.drop pre.data.length⟩ else none

/-- Accumulator-style splitter on a character, keeping empty pieces,
exactly as Rust `str::split(c)` does. -/
def splitChAux (c : Char) (acc : List Char) : List Char → List (List Char)
  | [] => [acc.reverse]
  | x :: xs => if x == c then acc.reverse :: splitChAux c [] xs else splitChAux c (x :: acc) xs

/-- Model of `path.split('/').filter(|s| !s.is_empty())`, the segment
splitting used by both the matcher and the nested resolver. -/
def splitSegs (s : String) : List String :=
  ((splitChAux '/' [] s.data).map (fun l => (⟨l⟩ : String))).filter (fun t => t != "")

/-! ## Route parameters (`RouteParams`, a `HashMap<String, String>`) -/

/-- Association-list model of `RouteParams`. -/
abbrev RouteParams := List (String × String)

/-- Model of `HashMap::insert`: the new binding replaces any old binding
for the same key. -/
def insertParam (k v : String) (m : RouteParams) : RouteParams :=
  (k, v) :: m.filter (fun p => p.1 != k)

/-! ## History stack (`src/history.rs`) -/

/-- `HistoryEntry { path, state }` from `history.rs`. -/
structure HistoryEntry where
  path : String
  state : Option (List (String × String))
  deriving Repr, DecidableEq

/-- `History { entries, current, max_size }` from `history.rs`. -/
structure History where
  entries : List HistoryEntry
  current : Nat
  maxSize : Nat
  deriving Repr, DecidableEq

/-- `NavigationDirection` used by history events. -/
inductive NavigationDirection where
  | forward
  | back
  | replace
  deriving Repr, DecidableEq

/-- `NavigationEvent { from, to, direction }` returned by history operations. -/
structure NavigationEvent where
  source : Option String
  target : String
  direction : NavigationDirection
  deriving Repr, DecidableEq

namespace History

/-- `History::new(initial_path)`: singleton history, default limit 1000. -/
def new (initialPath : String) : History :=
  { entries := [⟨initialPath, none⟩], current := 0, maxSize := 1000 }

/-- `History::with_max_size(initial_path, max_size)`. -/
def withMaxSize (initialPath : String) (maxSize : Nat) : History :=
  { entries := [⟨initialPath, none⟩], current := 0, maxSize := maxSize }

/-- `History::current_path`, reading `entries[current]`; in Rust the index
is always in bounds by the history invariant. -/
def currentPath (h : History) : String :=
  (h.entries.getD h.current ⟨"", none⟩).path

/-- `History::enforce_size_limit`: when a limit is set and exceeded, drain
the oldest entries from the front and shift `current` down, saturating. -/
def enforceSizeLimit (h : History) : History :=
  if h.maxSize > 0 ∧ h.entries.length > h.maxSize then
    let excess := h.entries.length - h.maxSize
    { h with entries := h.entries.drop excess, current := h.current - excess }
  else h

/-- `History::push`: truncate forward history, append, advance the cursor,
then enforce the size limit. -/
def push (h : History) (path : String) : History × NavigationEvent :=
  let source := h.currentPath
  let entries := h.entries.take (h.current + 1) ++ [⟨path, none⟩]
  let h1 := enforceSizeLimit { h with entries := entries, current := h.current + 1 }
  (h1, ⟨some source, path, .forward⟩)

/-- `History::push_with_state`: same as `push` but the new entry carries state. -/
def pushWithState (h : History) (path : String)
    (state : List (String × String)) : History × NavigationEvent :=
  let source := h.currentPath
  let entries := h.entries.take (h.current + 1) ++ [⟨path, some state⟩]
  let h1 := enforceSizeLimit { h with entries := entries, current := h.current + 1 }
  (h1, ⟨some source, path, .forward⟩)

/-- `History::replace`: overwrite the entry at `current` in place. -/
def replace (h : History) (path : String) : History × NavigationEvent :=
  ({ h with entries := h.entries.set h.current ⟨path, none⟩ },
   ⟨some h.currentPath, path, .replace⟩)

/-- `History::replace_with_state`. -/
def replaceWithState (h : History) (path : String)
    (state : List (String × String)) : History × NavigationEvent :=
  ({ h with entries := h.entries.set h.current ⟨path, some state⟩ },
   ⟨some h.currentPath, path, .replace⟩)

/-- `History::can_go_back`. -/
def canGoBack (h : History) : Bool :=
  h.current > 0

/-- `History::can_go_forward`: `current < entries.len() - 1`. -/
def canGoForward (h : History) : Bool :=
  h.current < h.entries.length - 1

/-- `History::back`: move the cursor back when possible, else do nothing
and report `None`. -/
def back (h : History) : History × Option NavigationEvent :=
  if h.canGoBack then
    let h1 := { h with current := h.current - 1 }
    (h1, some ⟨some h.currentPath, h1.currentPath, .back⟩)
  else (h, none)

/-- `History::forward`: move the cursor forward when possible. -/
def forward (h : History) : History × Option NavigationEvent :=
  if h.canGoForward then
    let h1 := { h with current := h.current + 1 }
    (h1, some ⟨some h.currentPath, h1.currentPath, .forward⟩)
  else (h, none)

/-- `History::clear(initial_path)`: reset to a singleton history. -/
def clear (h : History) (initialPath : String) : History :=
  { h with entries := [⟨initialPath, none⟩], current := 0 }

/-- `History::restore(entries, current)`: adopt the entries only when they
are non-empty and the cursor is in bounds. -/
def restore (h : History) (entries : List HistoryEntry) (current : Nat) : History :=
  if ¬entries.isEmpty ∧ current < entries.length then
    { h with entries := entries, current := current }
  else h

/-- `History::len`. -/
def len (h : History) : Nat :=
  h.entries.length

/-- The history invariant of the specification: the entry list is never
empty and the cursor is strictly in bounds. -/
def Inv (h : History) : Prop :=
  h.entries ≠ [] ∧ h.current < h.entries.length

instance : DecidablePred Inv := fun h => by
  unfold Inv; infer_instance

end History

/-! ## Pattern matcher (`src/matcher.rs`) -/

/-- `Constraint` from `matcher.rs`. -/
inductive Constraint where
  | pattern (raw : String)
  | numeric
  | uuid
  deriving Repr, DecidableEq

namespace Constraint

/-- `Constraint::parse`. -/
def parse (s : String) : Constraint :=
  if s = "\\d+" then .numeric
  else if s = "uuid" then .uuid
  else .pattern s

/-- `char::is_ascii_hexdigit`. -/
def isAsciiHexDigit (c : Char) : Bool :=
  c.isDigit || ('a' ≤ c && c ≤ 'f') || ('A' ≤ c && c ≤ 'F')

/-- `Constraint::validate`: Numeric requires ASCII digits, Uuid requires
the 8-4-4-4-12 hex shape, Pattern currently accepts everything. -/
def validate : Constraint → String → Bool
  | .numeric, v => v.data.all (·.isDigit)
  | .uuid, v =>
      match splitChAux '-' [] v.data with
      | [a, b, c, d, e] =>
          a.length == 8 && b.length == 4 && c.length == 4 && d.length == 4 &&
          e.length == 12 &&
          (a.all isAsciiHexDigit && b.all isAsciiHexDigit && c.all isAsciiHexDigit &&
           d.all isAsciiHexDigit && e.all isAsciiHexDigit)
      | _ => false
  | .pattern _, _ => true

end Constraint

/-- `Segment` from `matcher.rs`. -/
inductive Segment where
  | static (text : String)
  | param (name : String) (constraint : Option Constraint)
  | optional (inner : Segment)
  | wildcard
  deriving Repr, DecidableEq

namespace Segment

/-- `Segment::parse`.  When it sees a `<` the Rust code slices
`rest[pos + 1 .. rest.len() - 1]` with byte indices: `pos` is the byte
index of the first `<` (one byte, so `pos + 1` is always a character
boundary) and the slice succeeds exactly when `pos + 1 ≤ rest.len() - 1`
(some character follows the first `<`) and `rest.len() - 1` falls on a
character boundary (the final character of the segment is a single UTF-8
byte).  In that case the slice holds the characters after the first `<`
up to but excluding the final one; otherwise Rust panics, which the
model reports as `Except.error`. -/
def parse (s : String) : Except String Segment :=
  if s = "*" then .ok .wildcard
  else
    match s.data with
    | ':' :: rest =>
        match rest.findIdx? (· == '<') with
        | some i =>
            if rest.drop (i + 1) ≠ [] ∧ rest.getLast?.map Char.utf8Size = some 1 then
              .ok (.param ⟨rest.take i⟩
                (some (Constraint.parse ⟨(rest.drop (i + 1)).dropLast⟩)))
            else .error "byte slice index out of range or not on a char boundary"
        | none => .ok (.param ⟨rest⟩ none)
    | _ => .ok (.static s)

/-- Whether a segment is an Optional segment. -/
def isOptional : Segment → Bool
  | .optional _ => true
  | _ => false

/-- Whether a segment is a Param segment. -/
def isParam : Segment → Bool
  | .param _ _ => true
  | _ => false

/-- Whether a segment is the Wildcard segment. -/
def isWildcard : Segment → Bool
  | .wildcard => true
  | _ => false

end Segment

/-- Count of Param segments in a pattern. -/
def countParams (segs : List Segment) : Nat :=
  (segs.filter Segment.isParam).length

/-- Count of Optional segments in a pattern. -/
def countOptionals (segs : List Segment) : Nat :=
  (segs.filter Segment.isOptional).length

/-- The loop of `RoutePattern::calculate_priority`: saturating subtraction
on a `u8` accumulator, returning 0 immediately on a Wildcard. -/
def calcPriorityAux : Nat → List Segment → Nat
  | p, [] => p
  | p, .static _ :: rest => calcPriorityAux p rest
  | p, .param _ _ :: rest => calcPriorityAux (p - 10) rest
  | p, .optional _ :: rest => calcPriorityAux (p - 5) rest
  | _, .wildcard :: _ => 0

/-- `RoutePattern::calculate_priority`, starting from the baseline 100. -/
def calculatePriority (segs : List Segment) : Nat :=
  calcPriorityAux 100 segs

/-- `RoutePattern` from `matcher.rs`. -/
structure RoutePattern where
  segments : List Segment
  priority : Nat
  deriving Repr, DecidableEq

namespace RoutePattern

/-- The segment collection loop of `RoutePattern::from_path`: parse each
piece left to right; the first Rust panic propagates as an error. -/
def parseSegments : List String → Except String (List Segment)
  | [] => .ok []
  | s :: rest =>
      match Segment.parse s with
      | .ok seg =>
          match parseSegments rest with
          | .ok segs => .ok (seg :: segs)
          | .error e => .error e
      | .error e => .error e

/-- `RoutePattern::from_path`: split on `/`, drop empty segments, parse
each segment, compute the priority. -/
def fromPath (path : String) : Except String RoutePattern :=
  match parseSegments (splitSegs path) with
  | .ok segs => .ok { segments := segs, priority := calculatePriority segs }
  | .error e => .error e

/-- The loop of `RoutePattern::match_segments`, walking pattern and path
segments in lockstep and accumulating extracted parameters. -/
def matchSegmentsAux : List Segment → List String → RouteParams → Option RouteParams
  | [], paths, params => if paths.isEmpty then some params else none
  | .static expected :: rest, paths, params =>
      match paths with
      | [] => none
      | p :: ps => if p = expected then matchSegmentsAux rest ps params else none
  | .param name constraint :: rest, paths, params =>
      match paths with
      | [] => none
      | v :: ps =>
          match constraint with
          | some c =>
              if c.validate v then matchSegmentsAux rest ps (insertParam name v params)
              else none
          | none => matchSegmentsAux rest ps (insertParam name v params)
  | .optional inner :: rest, paths, params =>
      match paths with
      | [] => matchSegmentsAux rest [] params
      | v :: ps =>
          match inner with
          | .param name constraint =>
              let isValid := match constraint with
                | some c => c.validate v
                | none => true
              if isValid then matchSegmentsAux rest ps (insertParam name v params)
              else matchSegmentsAux rest (v :: ps) params
          | _ => matchSegmentsAux rest (v :: ps) params
  | .wildcard :: _, _, params => some params

/-- `RoutePattern::matches` (`matches` is reserved in Lean, hence the name). -/
def matchPath (pat : RoutePattern) (path : String) : Option RouteParams :=
  matchSegmentsAux pat.segments (splitSegs path) []

end RoutePattern

/-! ## Route tree nodes (`src/route.rs`)

Only the data consulted by the resolution algorithms is modelled: the
path, the optional name, the default-outlet children and the named-outlet
children.  Builders, guards, middleware and lifecycle hooks attached to a
node are behaviour, not data the resolvers read. -/

/-- A route tree node: `Route { config.path, config.name, children,
named_children }`. -/
inductive Route where
  | mk (path : String) (name : Option String)
      (children : List Route) (namedChildren : List (String × List Route))

namespace Route

/-- The `config.path` of a node. -/
def path : Route → String
  | .mk p _ _ _ => p

/-- The `config.name` of a node. -/
def name : Route → Option String
  | .mk _ n _ _ => n

/-- `Route::get_children`. -/
def children : Route → List Route
  | .mk _ _ c _ => c

/-- `Route::get_named_children(name)`: lookup in the named-outlet map. -/
def getNamedChildren (r : Route) (outlet : String) : Option (List Route) :=
  (match r with | .mk _ _ _ nc => nc).lookup outlet

end Route

/-! ## Nested resolver (`src/nested.rs`) -/

/-- Candidate child selection of `resolve_child_route`: the named outlet
list when an outlet name is given, else the default children. -/
def selectChildren (parent : Route) (outletName : Option String) : Option (List Route) :=
  match outletName with
  | some n => parent.getNamedChildren n
  | none => some parent.children

/-- `find_index_route`: the first child whose trimmed path is empty, "/"
or "index", returned with the parameters unchanged. -/
def findIndexRoute (children : List Route) (params : RouteParams) : Option (Route × RouteParams) :=
  match children with
  | [] => none
  | child :: rest =>
      let cp := trimStartChar '/' child.path
      if cp = "" ∨ cp = "/" ∨ cp = "index" then some (child, params)
      else findIndexRoute rest params

/-- The candidate scan of `resolve_child_route`: the first child whose
trimmed path equals the first suffix segment or starts with `:`; a
parameter child binds the segment into a copy of the parent params. -/
def resolveChildLoop (firstSegment : String) (parentParams : RouteParams) :
    List Route → Option (Route × RouteParams)
  | [] => none
  | child :: rest =>
      let childPath := trimStartChar '/' child.path
      if childPath = firstSegment ∨ strStarts childPath ":" then
        let combined :=
          if strStarts childPath ":" then
            insertParam (trimStartChar ':' childPath) firstSegment parentParams
          else parentParams
        some (child, combined)
      else resolveChildLoop firstSegment parentParams rest

/-- The remaining suffix of the current path after the parent prefix, as
computed by `resolve_child_route`. -/
def remainingAfterParent (parentPathNorm currentPathNorm : String) : String :=
  if parentPathNorm = "" ∨ parentPathNorm = "/" then currentPathNorm
  else
    trimStartChar '/'
      ((stripPrefixStr currentPathNorm (trimStartChar '/' parentPathNorm)).getD "")

/-- `resolve_child_route` from `nested.rs`. -/
def resolveChildRoute (parent : Route) (currentPath : String) (parentParams : RouteParams)
    (outletName : Option String) : Option (Route × RouteParams) :=
  match selectChildren parent outletName with
  | none => none
  | some children =>
      if children.isEmpty then none
      else
        let parentPathNorm := trimEndChar '/' parent.path
        let currentPathNorm := trimStartChar '/' currentPath
        if ¬ strStarts currentPathNorm (trimStartChar '/' parentPathNorm) then none
        else
          let remaining := remainingAfterParent parentPathNorm currentPathNorm
          if remaining = "" then findIndexRoute children parentParams
          else
            let segments := splitSegs remaining
            if segments.isEmpty then findIndexRoute children parentParams
            else resolveChildLoop (segments.headD "") parentParams children

/-! ## Deepest-outlet-owner search (`src/widgets.rs`) -/

/-- A route path trimmed of leading and trailing slashes, as the DFS does. -/
def routeSeg (r : Route) : String :=
  trimEndChar '/' (trimStartChar '/' r.path)

/-- The accumulated full path of a node during the DFS. -/
def fullRoutePath (accumulated seg : String) : String :=
  if accumulated = "" then (if seg = "" ∨ seg = "/" then "" else seg)
  else if seg = "" ∨ seg = "/" then accumulated
  else accumulated ++ "/" ++ seg

/-- Whether a character list starts with `/`. -/
def headIsSlash : List Char → Bool
  | '/' :: _ => true
  | _ => false

/-- The subtree test of the DFS: the current path lies under a node's
full path when it extends it at a segment boundary (or the full path is
empty and the current path is not). -/
def isUnderPath (curNorm full : String) : Bool :=
  if full = "" then !(curNorm == "")
  else
    strStarts curNorm full &&
      (curNorm.data.length == full.data.length ||
        headIsSlash (curNorm.data.drop full.data.length))

/-- The full path of a direct child during the fallback check of the DFS. -/
def childFullPath (full : String) (child : Route) : String :=
  let cseg := routeSeg child
  if full = "" then cseg else full ++ "/" ++ cseg

/-- Whether the current path matches a direct child's full path or lies
strictly under it. -/
def childMatches (curNorm full : String) (child : Route) : Bool :=
  let cfull := childFullPath full child
  curNorm == cfull || strStarts curNorm (cfull ++ "/")

mutual

/-- One iteration of the loop of `find_parent_route_internal` for a single
route; returns `none` when the loop would continue to the next route. -/
def findParentOne (r : Route) (currentPath accumulatedPath : String) : Option Route :=
  let curNorm := trimEndChar '/' (trimStartChar '/' currentPath)
  if r.children.isEmpty then none
  else
    let full := fullRoutePath accumulatedPath (routeSeg r)
    if isUnderPath curNorm full then
      match findParentList r.children currentPath full with
      | some deeper => some deeper
      | none =>
          if r.children.any (childMatches curNorm full) then some r
          else if curNorm = full ∧ accumulatedPath = "" then some r
          else none
    else none
termination_by sizeOf r
decreasing_by
  simp_wf
  cases r with
  | mk p n c nc => simp [Route.children]; omega

/-- `find_parent_route_internal` from `widgets.rs`: depth-first search,
children first, over a list of routes. -/
def findParentList (routes : List Route) (currentPath accumulatedPath : String) : Option Route :=
  match routes with
  | [] => none
  | r :: rest =>
      match findParentOne r currentPath accumulatedPath with
      | some found => some found
      | none => findParentList rest currentPath accumulatedPath
termination_by sizeOf routes
decreasing_by
  all_goals simp_wf <;> omega

end

/-- `find_parent_route_for_path`: the DFS started at the top-level routes
with an empty accumulated path. -/
def findParentRouteForPath (routes : List Route) (currentPath : String) : Option Route :=
  findParentList routes currentPath ""

/-! ## Resolution cache (`src/cache.rs`) -/

/-- `RouteId { path }`. -/
structure RouteId where
  path : String
  deriving Repr, DecidableEq

/-- `CacheStats` with its five counters. -/
structure CacheStats where
  parent_hits : Nat
  parent_misses : Nat
  child_hits : Nat
  child_misses : Nat
  invalidations : Nat
  deriving Repr, DecidableEq

/-- A fresh all-zero `CacheStats`, as `CacheStats::default()`. -/
def CacheStats.default : CacheStats :=
  ⟨0, 0, 0, 0, 0⟩

/-- An LRU map modelled as a capacity together with a list of entries,
most recently used first. -/
structure LruMap (K V : Type) where
  cap : Nat
  entries : List (K × V)

namespace LruMap

/-- `LruCache::new(cap)`. -/
def new (K V : Type) (cap : Nat) : LruMap K V :=
  { cap := cap, entries := [] }

/-- `LruCache::clear`. -/
def clear (c : LruMap K V) : LruMap K V :=
  { c with entries := [] }

/-- `LruCache::len`. -/
def len (c : LruMap K V) : Nat :=
  c.entries.length

/-- `LruCache::get`, promoting the entry to most-recently-used on a hit. -/
def get [BEq K] (c : LruMap K V) (k : K) : Option V × LruMap K V :=
  match c.entries.lookup k with
  | some v => (some v, { c with entries := (k, v) :: c.entries.filter (fun p => p.1 != k) })
  | none => (none, c)

/-- `LruCache::push`: insert or update at most-recently-used position,
evicting from the least-recently-used end beyond the capacity. -/
def push [BEq K] (c : LruMap K V) (k : K) (v : V) : LruMap K V :=
  { c with entries := ((k, v) :: c.entries.filter (fun p => p.1 != k)).take c.cap }

end LruMap

/-- `RouteCache`: the two independent LRU maps plus statistics. -/
structure RouteCache where
  parent_cache : LruMap String RouteId
  child_cache : LruMap (String × Option String) RouteParams
  stats : CacheStats

namespace RouteCache

/-- `RouteCache::with_capacity`. -/
def withCapacity (cap : Nat) : RouteCache :=
  { parent_cache := LruMap.new _ _ cap
    child_cache := LruMap.new _ _ cap
    stats := CacheStats.default }

/-- `RouteCache::new`, using the default capacity of 1000. -/
def new : RouteCache :=
  withCapacity 1000

/-- `RouteCache::clear`: empty both maps and count one invalidation. -/
def clear (c : RouteCache) : RouteCache :=
  { c with
    parent_cache := c.parent_cache.clear
    child_cache := c.child_cache.clear
    stats := { c.stats with invalidations := c.stats.invalidations + 1 } }

/-- `RouteCache::get_parent` with hit/miss accounting. -/
def getParent (c : RouteCache) (path : String) : Option RouteId × RouteCache :=
  match c.parent_cache.get path with
  | (some entry, pc) =>
      (some entry,
       { c with parent_cache := pc
                stats := { c.stats with parent_hits := c.stats.parent_hits + 1 } })
  | (none, pc) =>
      (none,
       { c with parent_cache := pc
                stats := { c.stats with parent_misses := c.stats.parent_misses + 1 } })

/-- `RouteCache::set_parent`. -/
def setParent (c : RouteCache) (path : String) (parentRouteId : RouteId) : RouteCache :=
  { c with parent_cache := c.parent_cache.push path parentRouteId }

/-- `RouteCache::reset_stats`. -/
def resetStats (c : RouteCache) : RouteCache :=
  { c with stats := CacheStats.default }

/-- `RouteCache::parent_cache_size`. -/
def parentCacheSize (c : RouteCache) : Nat :=
  c.parent_cache.len

/-- `RouteCache::child_cache_size`. -/
def childCacheSize (c : RouteCache) : Nat :=
  c.child_cache.len

end RouteCache

/-! ## Router state and facade (`src/state.rs`, `src/context.rs`) -/

/-- `RouteMatch { path, params, query }`. -/
structure RouteMatch where
  path : String
  params : RouteParams
  query : RouteParams

/-- The event type returned by the facade navigation operations. -/
abbrev RouteChangeEvent := NavigationEvent

/-- `RouterState`: its own path history plus the registered route list and
a match cache. -/
structure RouterState where
  history : List String
  current : Nat
  routes : List Route
  cache : List (String × RouteMatch)

namespace RouterState

/-- `RouterState::new`. -/
def new : RouterState :=
  { history := ["/"], current := 0, routes := [], cache := [] }

/-- `RouterState::current_path`. -/
def currentPath (s : RouterState) : String :=
  s.history.getD s.current ""

/-- `RouterState::add_route`: append the route and drop the match cache. -/
def addRoute (s : RouterState) (r : Route) : RouterState :=
  { s with routes := s.routes ++ [r], cache := [] }

/-- `RouterState::push`: truncate forward history and append. -/
def push (s : RouterState) (path : String) : RouterState × RouteChangeEvent :=
  let source := s.currentPath
  ({ s with history := s.history.take (s.current + 1) ++ [path], current := s.current + 1 },
   ⟨some source, path, .forward⟩)

/-- `RouterState::replace`. -/
def replace (s : RouterState) (path : String) : RouterState × RouteChangeEvent :=
  ({ s with history := s.history.set s.current path },
   ⟨some s.currentPath, path, .replace⟩)

/-- `RouterState::back`. -/
def back (s : RouterState) : RouterState × Option RouteChangeEvent :=
  if s.current > 0 then
    let s1 := { s with current := s.current - 1 }
    (s1, some ⟨some s.currentPath, s1.currentPath, .back⟩)
  else (s, none)

/-- `RouterState::forward`. -/
def forward (s : RouterState) : RouterState × Option RouteChangeEvent :=
  if s.current < s.history.length - 1 then
    let s1 := { s with current := s.current + 1 }
    (s1, some ⟨some s.currentPath, s1.currentPath, .forward⟩)
  else (s, none)

end RouterState

/-- `HashMap::insert` on the named-route registry: last registration wins. -/
def registerNamed (reg : List (String × String)) (routeName routePath : String) :
    List (String × String) :=
  (routeName, routePath) :: reg.filter (fun p => p.1 != routeName)

/-- `GlobalRouter`: the Router Facade composing state, resolution cache
and the named-route registry. -/
structure GlobalRouter where
  state : RouterState
  nested_cache : RouteCache
  named_routes : List (String × String)

namespace GlobalRouter

/-- `GlobalRouter::new`. -/
def new : GlobalRouter :=
  { state := RouterState.new, nested_cache := RouteCache.new, named_routes := [] }

/-- `GlobalRouter::add_route`: register the name when present, add the
route to the state, and clear the resolution cache. -/
def addRoute (g : GlobalRouter) (r : Route) : GlobalRouter :=
  let named := match r.name with
    | some n => registerNamed g.named_routes n r.path
    | none => g.named_routes
  { state := g.state.addRoute r
    nested_cache := g.nested_cache.clear
    named_routes := named }

/-- `GlobalRouter::push`: clear the cache, then delegate to the state. -/
def push (g : GlobalRouter) (path : String) : GlobalRouter × RouteChangeEvent :=
  let (s, e) := g.state.push path
  ({ g with state := s, nested_cache := g.nested_cache.clear }, e)

/-- `GlobalRouter::replace`. -/
def replace (g : GlobalRouter) (path : String) : GlobalRouter × RouteChangeEvent :=
  let (s, e) := g.state.replace path
  ({ g with state := s, nested_cache := g.nested_cache.clear }, e)

/-- `GlobalRouter::back`: the cache is cleared even when the move fails. -/
def back (g : GlobalRouter) : GlobalRouter × Option RouteChangeEvent :=
  let (s, e) := g.state.back
  ({ g with state := s, nested_cache := g.nested_cache.clear }, e)

/-- `GlobalRouter::forward`. -/
def forward (g : GlobalRouter) : GlobalRouter × Option RouteChangeEvent :=
  let (s, e) := g.state.forward
  ({ g with state := s, nested_cache := g.nested_cache.clear }, e)

end GlobalRouter

/-! ## Guard pipeline (`src/guards.rs`)

A guard is modelled by its priority and the result its future resolves
to; an `id` distinguishes members of a composite.  `Guards::check` first
calls `check` on every member in sorted order, collecting the futures,
and only then awaits them one by one, returning at the first non-Allow
result.  The model records both lists: the guards whose `check` was
invoked (futures built) and the guards whose future was awaited. -/

/-- `GuardResult` from `guards.rs`. -/
inductive GuardResult where
  | allow
  | deny (reason : String)
  | redirect (target : String) (reason : Option String)
  deriving Repr, DecidableEq

/-- A member guard of a composite: identity, priority, and the result its
check future resolves to. -/
structure MGuard where
  id : Nat
  priority : Int
  result : GuardResult
  deriving Repr, DecidableEq

/-- The ordering used by `Guards::check` (`sort_by_key(|g| -g.priority())`):
descending priority. -/
def guardOrder (a b : MGuard) : Prop :=
  b.priority ≤ a.priority

instance : DecidableRel guardOrder := fun a b => by
  unfold guardOrder
  infer_instance

instance : IsTotal MGuard guardOrder :=
  ⟨fun a b => le_total b.priority a.priority⟩

instance : IsTrans MGuard guardOrder :=
  ⟨fun _ _ _ hab hbc => le_trans hbc hab⟩

/-- The stable sort by descending priority performed by `Guards::check`. -/
def sortGuards (gs : List MGuard) : List MGuard :=
  List.insertionSort guardOrder gs

/-- The await loop of `Guards::check`: await each future in order, stop
at the first non-Allow result.  Returns the awaited guards and the
composite result. -/
def awaitLoop : List MGuard → List MGuard × GuardResult
  | [] => ([], .allow)
  | g :: rest =>
      match g.result with
      | .allow => let (aw, r) := awaitLoop rest; (g :: aw, r)
      | other => ([g], other)

/-- The trace of one execution of `Guards::check`. -/
structure GuardRun where
  invoked : List MGuard
  awaited : List MGuard
  result : GuardResult
  deriving Repr, DecidableEq

/-- `Guards::check`: sort by descending priority, build every member's
future (invoking each `check`), then await sequentially with
short-circuit. -/
def guardsCheck (gs : List MGuard) : GuardRun :=
  let sorted := sortGuards gs
  let (aw, res) := awaitLoop sorted
  { invoked := sorted, awaited := aw, result := res }

/-- `NotGuard::check`: invert Allow and Deny, pass Redirect through. -/
def notGuardCheck (inner : GuardResult) : GuardResult :=
  match inner with
  | .allow => .deny "Inverted: guard allowed but NOT expected"
  | .deny _ => .allow
  | .redirect t r => .redirect t r

/-! ## Vocabulary used by the theorems below -/

/-- Apply a sequence of back (`true`) and forward (`false`) cursor moves
to a history. -/
def applyMoves (h : History) : List Bool → History
  | [] => h
  | b :: rest => applyMoves (if b then (h.back).1 else (h.forward).1) rest

/-- The index-route test of `find_index_route`: trimmed path empty, "/"
or "index". -/
def indexChildTest (child : Route) : Bool :=
  decide (trimStartChar '/' child.path = "" ∨ trimStartChar '/' child.path = "/" ∨
    trimStartChar '/' child.path = "index")

/-- The candidate test of the `resolve_child_route` scan: trimmed path
equal to the first suffix segment, or a leading-`:` parameter child. -/
def childScanTest (firstSegment : String) (child : Route) : Bool :=
  decide (trimStartChar '/' child.path = firstSegment ∨
    strStarts (trimStartChar '/' child.path) ":" = true)

/-- The parameter binding performed on a scan match: a parameter child
binds the first suffix segment into a copy of the parent params. -/
def scanBind (firstSegment : String) (parentParams : RouteParams) (child : Route) : RouteParams :=
  if strStarts (trimStartChar '/' child.path) ":" then
    insertParam (trimStartChar ':' (trimStartChar '/' child.path)) firstSegment parentParams
  else parentParams

/-- Demo child node `analytics` for the resolver witnesses. -/
def analyticsNode : Route :=
  .mk "analytics" none [] []

/-- Demo child node `overview` for the resolver witnesses. -/
def overviewNode : Route :=
  .mk "overview" none [] []

/-- Demo parent node `/dashboard` with two default-outlet children. -/
def dashboardNode : Route :=
  .mk "/dashboard" none [overviewNode, analyticsNode] []

/-- Demo leaf `advanced` for the DFS witness. -/
def advancedNode : Route :=
  .mk "advanced" none [] []

/-- Demo mid-level node `settings` owning one child. -/
def settingsNode : Route :=
  .mk "settings" none [advancedNode] []

/-- Demo top-level node `/dashboard` owning the `settings` subtree. -/
def dashboardTreeNode : Route :=
  .mk "/dashboard" none [settingsNode] []

/-! # Theorems -/

/-! ## History helper lemmas -/

/-- Under the invariant, truncating at the cursor keeps `current + 1`
entries. -/
theorem hist_take_length (h : History) (hInv : h.Inv) :
    (h.entries.take (h.current + 1)).length = h.current + 1 := by
  have := hInv.2
  simp [List.length_take]
  omega

/-- Case description of `push`: either no eviction happens and the new
entry is appended after truncation, or the overflow is dropped from the
front and the cursor shifts down. -/
theorem hist_push_cases (h : History) (p : String) (hInv : h.Inv) :
    ((h.maxSize = 0 ∨ h.current + 2 ≤ h.maxSize) ∧
        (h.push p).1.entries = h.entries.take (h.current + 1) ++ [⟨p, none⟩] ∧
        (h.push p).1.current = h.current + 1) ∨
    (0 < h.maxSize ∧ h.maxSize < h.current + 2 ∧
        (h.push p).1.entries =
          (h.entries.take (h.current + 1) ++ [(⟨p, none⟩ : HistoryEntry)]).drop
            (h.current + 2 - h.maxSize) ∧
        (h.push p).1.current = (h.current + 1) - (h.current + 2 - h.maxSize)) := by
  have hlen : (h.entries.take (h.current + 1) ++ [(⟨p, none⟩ : HistoryEntry)]).length
      = h.current + 2 := by
    have := hInv.2
    simp [List.length_take]
    omega
  unfold History.push History.enforceSizeLimit
  dsimp only
  rw [hlen]
  by_cases hc : h.maxSize > 0 ∧ h.current + 2 > h.maxSize
  · right
    rw [if_pos hc]
    exact ⟨hc.1, by omega, rfl, rfl⟩
  · left
    rw [if_neg hc]
    exact ⟨by omega, rfl, rfl⟩

/-- `push` does not change the size limit. -/
theorem hist_push_maxSize (h : History) (p : String) :
    (h.push p).1.maxSize = h.maxSize := by
  unfold History.push History.enforceSizeLimit
  dsimp only
  split <;> rfl

/-- After a `push` the cursor sits on the last entry. -/
theorem hist_push_cursor_top (h : History) (p : String) (hInv : h.Inv) :
    (h.push p).1.current + 1 = (h.push p).1.entries.length := by
  rcases hist_push_cases h p hInv with ⟨_, he, hc⟩ | ⟨h1, h2, he, hc⟩
  · rw [he, hc]
    simp [hist_take_length h hInv]
  · rw [he, hc]
    simp [hist_take_length h hInv]
    omega

/-- `push` preserves the history invariant. -/
theorem hist_push_inv (h : History) (p : String) (hInv : h.Inv) :
    (h.push p).1.Inv := by
  have htop := hist_push_cursor_top h p hInv
  constructor
  · intro hnil
    rw [hnil] at htop
    simp at htop
  · omega

/-- `back` preserves the invariant. -/
theorem hist_back_inv (h : History) (hInv : h.Inv) : (h.back).1.Inv := by
  unfold History.back
  split
  · refine ⟨hInv.1, ?_⟩
    show h.current - 1 < h.entries.length
    have := hInv.2
    omega
  · exact hInv

/-- `forward` preserves the invariant. -/
theorem hist_forward_inv (h : History) (hInv : h.Inv) : (h.forward).1.Inv := by
  unfold History.forward
  split
  · next hc =>
      refine ⟨hInv.1, ?_⟩
      show h.current + 1 < h.entries.length
      simp [History.canGoForward] at hc
      have := hInv.2
      omega
  · exact hInv

/-- `back` and `forward` never change the entry list. -/
theorem hist_moves_entries (h : History) :
    (h.back).1.entries = h.entries ∧ (h.forward).1.entries = h.entries := by
  constructor
  · unfold History.back; split <;> rfl
  · unfold History.forward; split <;> rfl

/-- Under the invariant, the current path is the path of one of the
entries. -/
theorem hist_currentPath_mem (h : History) (hInv : h.Inv) :
    h.currentPath ∈ h.entries.map HistoryEntry.path := by
  have hlt := hInv.2
  unfold History.currentPath
  rw [List.getD_eq_getElem?_getD, List.getElem?_eq_getElem hlt]
  exact List.mem_map_of_mem _ (List.getElem_mem hlt)

/-- Truncate-append-enforce preserves the invariant for any new entry;
this is the common body of `push` and `push_with_state`. -/
theorem hist_enforce_inv_generic (h : History) (e : HistoryEntry) (hInv : h.Inv) :
    (History.enforceSizeLimit
      { h with entries := h.entries.take (h.current + 1) ++ [e],
               current := h.current + 1 }).Inv := by
  have hlen : (h.entries.take (h.current + 1) ++ [e]).length = h.current + 2 := by
    have := hInv.2
    simp [List.length_take]
    omega
  unfold History.enforceSizeLimit
  dsimp only
  rw [hlen]
  split
  · next hc =>
      have hdlen : ((h.entries.take (h.current + 1) ++ [e]).drop
          (h.current + 2 - h.maxSize)).length = h.current + 2 - (h.current + 2 - h.maxSize) := by
        rw [List.length_drop, hlen]
      refine ⟨List.length_pos.mp ?_, ?_⟩
      · rw [hdlen]
        omega
      · show (h.current + 1) - (h.current + 2 - h.maxSize) <
          ((h.entries.take (h.current + 1) ++ [e]).drop (h.current + 2 - h.maxSize)).length
        rw [hdlen]
        omega
  · refine ⟨by simp, ?_⟩
    show h.current + 1 < (h.entries.take (h.current + 1) ++ [e]).length
    rw [hlen]
    omega

/-! ## C3: history invariants, truncation and eviction -/

/-- C3: every History operation preserves the invariant that the entry
list is non-empty with the cursor strictly in bounds; push truncates the
forward branch before appending, and when a size limit is set and
exceeded, entries are evicted from the front with the cursor shifted down
by the evicted count, saturating at zero (a zero limit is unbounded). -/
theorem c3_history_invariant :
    (∀ p, (History.new p).Inv) ∧
    (∀ p m, (History.withMaxSize p m).Inv) ∧
    (∀ (h : History) (p : String), h.Inv → (h.push p).1.Inv) ∧
    (∀ (h : History) (p : String) st, h.Inv → (h.pushWithState p st).1.Inv) ∧
    (∀ (h : History) (p : String), h.Inv → (h.replace p).1.Inv) ∧
    (∀ (h : History) (p : String) st, h.Inv → (h.replaceWithState p st).1.Inv) ∧
    (∀ h : History, h.Inv → (h.back).1.Inv) ∧
    (∀ h : History, h.Inv → (h.forward).1.Inv) ∧
    (∀ (h : History) (p : String), (h.clear p).Inv) ∧
    (∀ (h : History) es c, h.Inv → (h.restore es c).Inv) ∧
    (∀ (h : History) (p : String), h.Inv →
      (((h.maxSize = 0 ∨ h.current + 2 ≤ h.maxSize) ∧
          (h.push p).1.entries = h.entries.take (h.current + 1) ++ [⟨p, none⟩] ∧
          (h.push p).1.current = h.current + 1) ∨
        (0 < h.maxSize ∧ h.maxSize < h.current + 2 ∧
          (h.push p).1.entries =
            (h.entries.take (h.current + 1) ++ [(⟨p, none⟩ : HistoryEntry)]).drop
              (h.current + 2 - h.maxSize) ∧
          (h.push p).1.current = (h.current + 1) - (h.current + 2 - h.maxSize)))) := by
  refine ⟨?_, ?_, ?_, ?_, ?_, ?_, hist_back_inv, hist_forward_inv, ?_, ?_, hist_push_cases⟩
  · intro p
    exact ⟨by simp [History.new], by simp [History.new]⟩
  · intro p m
    exact ⟨by simp [History.withMaxSize], by simp [History.withMaxSize]⟩
  · intro h p hInv
    exact hist_enforce_inv_generic h ⟨p, none⟩ hInv
  · intro h p st hInv
    exact hist_enforce_inv_generic h ⟨p, some st⟩ hInv
  · intro h p hInv
    refine ⟨?_, ?_⟩
    · show h.entries.set h.current ⟨p, none⟩ ≠ []
      refine List.length_pos.mp ?_
      rw [List.length_set]
      exact List.length_pos.mpr hInv.1
    · show h.current < (h.entries.set h.current ⟨p, none⟩).length
      rw [List.length_set]
      exact hInv.2
  · intro h p st hInv
    refine ⟨?_, ?_⟩
    · show h.entries.set h.current ⟨p, some st⟩ ≠ []
      refine List.length_pos.mp ?_
      rw [List.length_set]
      exact List.length_pos.mpr hInv.1
    · show h.current < (h.entries.set h.current ⟨p, some st⟩).length
      rw [List.length_set]
      exact hInv.2
  · intro h p
    exact ⟨by simp [History.clear], by simp [History.clear]⟩
  · intro h es c hInv
    unfold History.restore
    split
    · next hc =>
        refine ⟨?_, hc.2⟩
        show es ≠ []
        simpa using hc.1
    · exact hInv

/-- Witness for C3 at a concrete history. -/
theorem c3_witness : ((History.new "/").push "/a").1.Inv :=
  c3_history_invariant.2.2.1 (History.new "/") "/a" (by decide)

/-! ## C7 and C9 helper lemmas -/

/-- When the size limit is not exactly one, after a `push` the cursor is
positive and the entry just below it is the old current entry. -/
theorem hist_push_getD_prev (h : History) (p : String) (hInv : h.Inv)
    (hm : h.maxSize ≠ 1) :
    0 < (h.push p).1.current ∧
      (h.push p).1.entries.getD ((h.push p).1.current - 1) ⟨"", none⟩ =
        h.entries.getD h.current ⟨"", none⟩ := by
  have htake : (h.entries.take (h.current + 1))[h.current]? = h.entries[h.current]? := by
    rw [List.getElem?_take]
    simp
  have htakelen := hist_take_length h hInv
  rcases hist_push_cases h p hInv with ⟨_, he, hc⟩ | ⟨hm0, hlt, he, hc⟩
  · refine ⟨by omega, ?_⟩
    rw [he, hc]
    simp only [Nat.add_sub_cancel]
    rw [List.getD_eq_getElem?_getD, List.getD_eq_getElem?_getD,
      List.getElem?_append, htakelen]
    simp only [Nat.lt_succ_self, if_pos]
    rw [htake]
  · have hm2 : 2 ≤ h.maxSize := by omega
    refine ⟨by omega, ?_⟩
    rw [he, hc]
    rw [List.getD_eq_getElem?_getD, List.getD_eq_getElem?_getD, List.getElem?_drop]
    have hidx : h.current + 2 - h.maxSize + ((h.current + 1) - (h.current + 2 - h.maxSize) - 1)
        = h.current := by omega
    rw [hidx, List.getElem?_append, htakelen]
    simp only [Nat.lt_succ_self, if_pos]
    rw [htake]

/-- Every entry of a pushed history comes from the truncated old entries
or is the new entry. -/
theorem hist_push_mem (h : History) (p : String) (x : HistoryEntry)
    (hx : x ∈ (h.push p).1.entries) :
    x ∈ h.entries.take (h.current + 1) ∨ x = ⟨p, none⟩ := by
  unfold History.push History.enforceSizeLimit at hx
  dsimp only at hx
  split at hx
  · have := List.mem_of_mem_drop hx
    rcases List.mem_append.mp this with hl | hr
    · exact Or.inl hl
    · exact Or.inr (List.mem_singleton.mp hr)
  · rcases List.mem_append.mp hx with hl | hr
    · exact Or.inl hl
    · exact Or.inr (List.mem_singleton.mp hr)

/-- Pushing onto a history whose limit is exactly one always leaves the
single new entry. -/
theorem hist_push_maxSize_one (h : History) (p : String) (hInv : h.Inv)
    (hm : h.maxSize = 1) :
    (h.push p).1.entries = [⟨p, none⟩] ∧ (h.push p).1.current = 0 := by
  rcases hist_push_cases h p hInv with ⟨hcond, _, _⟩ | ⟨_, _, he, hc⟩
  · omega
  · have htakelen := hist_take_length h hInv
    rw [he, hc]
    constructor
    · have hdx : h.current + 2 - h.maxSize = (h.entries.take (h.current + 1)).length := by
        rw [htakelen]; omega
      rw [hdx, List.drop_left]
    · omega

/-- The entries immediately below the cursor of a pushed history never
carry the pushed path of an earlier, different push: every entry of the
pushed history except the last comes from the base history. -/
theorem hist_push_mem_take_top (h : History) (p : String) (hInv : h.Inv) (x : HistoryEntry)
    (hx : x ∈ (h.push p).1.entries.take ((h.push p).1.entries.length - 1)) :
    x ∈ h.entries := by
  have htakelen := hist_take_length h hInv
  rcases hist_push_cases h p hInv with ⟨_, he, _⟩ | ⟨hm0, hlt, he, _⟩
  · rw [he] at hx
    have hlen : (h.entries.take (h.current + 1) ++ [(⟨p, none⟩ : HistoryEntry)]).length - 1
        = (h.entries.take (h.current + 1)).length := by
      simp
    rw [hlen, List.take_left] at hx
    exact List.mem_of_mem_take hx
  · rw [he] at hx
    have hexle : h.current + 2 - h.maxSize ≤ (h.entries.take (h.current + 1)).length := by
      rw [htakelen]; omega
    rw [List.drop_append_of_le_length hexle] at hx
    have hlen2 : ((h.entries.take (h.current + 1)).drop (h.current + 2 - h.maxSize)
          ++ [(⟨p, none⟩ : HistoryEntry)]).length - 1
        = ((h.entries.take (h.current + 1)).drop (h.current + 2 - h.maxSize)).length := by
      simp
    rw [hlen2, List.take_left] at hx
    exact List.mem_of_mem_take (List.mem_of_mem_drop hx)

/-- Back and forward moves keep the entry list and the invariant. -/
theorem hist_applyMoves_entries (moves : List Bool) (h : History) :
    (applyMoves h moves).entries = h.entries ∧
      (h.Inv → (applyMoves h moves).Inv) := by
  induction moves generalizing h with
  | nil => exact ⟨rfl, fun hh => hh⟩
  | cons b rest ih =>
      cases b with
      | true =>
          refine ⟨?_, ?_⟩
          · show (applyMoves (h.back).1 rest).entries = h.entries
            rw [(ih (h.back).1).1, (hist_moves_entries h).1]
          · intro hInv
            exact (ih (h.back).1).2 (hist_back_inv h hInv)
      | false =>
          refine ⟨?_, ?_⟩
          · show (applyMoves (h.forward).1 rest).entries = h.entries
            rw [(ih (h.forward).1).1, (hist_moves_entries h).2]
          · intro hInv
            exact (ih (h.forward).1).2 (hist_forward_inv h hInv)

/-- After push a, push b, back, push c, the path b no longer appears in
the history, provided b is distinct from a, from c and from every path of
the starting history. -/
theorem hist_b_unreachable (h : History) (a b c : String) (hInv : h.Inv)
    (hb : b ∉ h.entries.map HistoryEntry.path) (hba : b ≠ a) (hbc : b ≠ c) :
    b ∉ (((((h.push a).1.push b).1.back).1.push c).1).entries.map HistoryEntry.path := by
  set h1 := (h.push a).1 with hh1
  set h2 := (h1.push b).1 with hh2
  have hInv1 : h1.Inv := hist_push_inv h a hInv
  have hInv2 : h2.Inv := hist_push_inv h1 b hInv1
  have hb1 : ∀ x ∈ h1.entries, x.path ≠ b := by
    intro x hx hxb
    rcases hist_push_mem h a x hx with hold | hnew
    · exact hb (hxb ▸ List.mem_map_of_mem HistoryEntry.path (List.mem_of_mem_take hold))
    · rw [hnew] at hxb
      exact hba hxb.symm
  have hkey : ∀ x ∈ h2.entries.take (h2.entries.length - 1), x.path ≠ b := by
    intro x hx
    exact hb1 x (hist_push_mem_take_top h1 b hInv1 x hx)
  have htop2 : h2.current + 1 = h2.entries.length := hist_push_cursor_top h1 b hInv1
  have hfinal : ∀ x ∈ (((h2.back).1.push c).1).entries, x.path ≠ b := by
    by_cases hcgb : h2.canGoBack = true
    · have hh3 : (h2.back).1 = { h2 with current := h2.current - 1 } := by
        unfold History.back
        rw [if_pos hcgb]
      have hcur2 : 0 < h2.current := by
        simpa [History.canGoBack] using hcgb
      intro x hx hxb
      rcases hist_push_mem (h2.back).1 c x hx with hold | hnew
      · rw [hh3] at hold
        have hidx : h2.current - 1 + 1 = h2.entries.length - 1 := by omega
        have : x ∈ h2.entries.take (h2.entries.length - 1) := by
          rw [← hidx]
          exact hold
        exact hkey x this hxb
      · rw [hnew] at hxb
        exact hbc hxb.symm
    · have hh3 : (h2.back).1 = h2 := by
        unfold History.back
        rw [if_neg hcgb]
      have hcur2 : h2.current = 0 := by
        simp [History.canGoBack] at hcgb
        omega
      have hlen2 : h2.entries.length = 1 := by omega
      have hm1 : h1.maxSize = 1 := by
        rcases hist_push_cases h1 b hInv1 with ⟨_, he, _⟩ | ⟨hm0, hlt, he, _⟩
        · have := congrArg List.length he
          rw [hlen2] at this
          rw [List.length_append, hist_take_length h1 hInv1] at this
          simp at this
        · have := congrArg List.length he
          rw [hlen2] at this
          rw [List.length_drop, List.length_append, hist_take_length h1 hInv1] at this
          simp at this
          omega
      have hm2 : h2.maxSize = 1 := by
        rw [hh2, hist_push_maxSize h1 b]
        exact hm1
      intro x hx hxb
      rw [hh3] at hx
      have := (hist_push_maxSize_one h2 c hInv2 hm2).1
      rw [this] at hx
      rw [List.mem_singleton.mp hx] at hxb
      exact hbc hxb.symm
  intro hmem
  obtain ⟨x, hx, hxb⟩ := List.mem_map.mp hmem
  exact hfinal x hx hxb

/-- After a replace the history can still go back exactly when it could
before, and going back reads the entry below the untouched cursor. -/
theorem hist_replace_back_getD (h1 : History) (q : String) (hpos : 0 < h1.current) :
    (((h1.replace q).1.back).1).currentPath =
      (h1.entries.getD (h1.current - 1) ⟨"", none⟩).path := by
  have hcgb : ((h1.replace q).1).canGoBack = true := by
    simp [History.canGoBack, History.replace]
    omega
  unfold History.back
  rw [if_pos hcgb]
  unfold History.currentPath History.replace
  dsimp only
  rw [List.getD_eq_getElem?_getD,
    List.getElem?_set_ne (by omega : h1.current ≠ h1.current - 1),
    ← List.getD_eq_getElem?_getD]

/-! ## C7: push followed by back, and truncation of the forward branch -/

/-- C7 (amended): provided the size limit is not exactly 1, a push
followed immediately by back restores the prior current path (with
max size 1 the pushed-from entry is evicted and back fails); and after
push a, push b, back, push c, the history cannot go forward, and — when
b differs from a, from c and from every path already in the history — no
sequence of back and forward moves reaches a state whose current path is
b. -/
theorem c7_push_back_amended :
    (∀ (h : History) (p : String), h.Inv → h.maxSize ≠ 1 →
        ((h.push p).1.back).1.currentPath = h.currentPath ∧
        ((h.push p).1.back).2.isSome = true) ∧
    (∀ (h : History) (a b c : String), h.Inv →
        (((((h.push a).1.push b).1.back).1.push c).1.canGoForward = false ∧
          (b ∉ h.entries.map HistoryEntry.path → b ≠ a → b ≠ c →
            ∀ moves : List Bool,
              (applyMoves (((((h.push a).1.push b).1.back).1.push c).1) moves).currentPath
                ≠ b))) := by
  constructor
  · intro h p hInv hm
    obtain ⟨hpos, hgetd⟩ := hist_push_getD_prev h p hInv hm
    have hcgb : ((h.push p).1).canGoBack = true := by
      simp [History.canGoBack]
      omega
    constructor
    · unfold History.back
      rw [if_pos hcgb]
      unfold History.currentPath
      dsimp only
      rw [hgetd]
    · unfold History.back
      rw [if_pos hcgb]
      rfl
  · intro h a b c hInv
    have hInv1 : ((h.push a).1).Inv := hist_push_inv h a hInv
    have hInv2 : (((h.push a).1.push b).1).Inv := hist_push_inv _ b hInv1
    have hInv3 : ((((h.push a).1.push b).1.back).1).Inv := hist_back_inv _ hInv2
    constructor
    · have htop := hist_push_cursor_top ((((h.push a).1.push b).1.back).1) c hInv3
      simp [History.canGoForward]
      omega
    · intro hb hba hbc moves
      have hInv4 := hist_push_inv ((((h.push a).1.push b).1.back).1) c hInv3
      have hent := (hist_applyMoves_entries moves (((((h.push a).1.push b).1.back).1.push c).1)).1
      have hinvM := (hist_applyMoves_entries moves (((((h.push a).1.push b).1.back).1.push c).1)).2 hInv4
      have hmem := hist_currentPath_mem _ hinvM
      rw [hent] at hmem
      intro hbeq
      rw [hbeq] at hmem
      exact hist_b_unreachable h a b c hInv hb hba hbc hmem

/-- C7 counterexample: with a size limit of 1 the entry pushed from is
evicted, so push then back does not restore the prior current path. -/
theorem c7_counterexample :
    (((History.withMaxSize "/" 1).push "/a").1.back).1.currentPath = "/a" ∧
    (((History.withMaxSize "/" 1).push "/a").1.back).2 = none ∧
    "/a" ≠ "/" := by decide

/-- Witness for C7 at concrete histories. -/
theorem c7_witness :
    (((History.new "/").push "/a").1.back).1.currentPath = (History.new "/").currentPath ∧
    (applyMoves (((((History.new "/").push "/a").1.push "/b").1.back).1.push "/c").1
        [true, true]).currentPath ≠ "/b" :=
  ⟨(c7_push_back_amended.1 (History.new "/") "/a" (by decide) (by decide)).1,
   (c7_push_back_amended.2 (History.new "/") "/a" "/b" "/c" (by decide)).2
     (by decide) (by decide) (by decide) [true, true]⟩

/-! ## C9: replace length preservation and back after push and replace -/

/-- C9 (amended): replace never changes the history length; and after one
push followed by one replace, a single back returns to the path that
existed before the push, provided the size limit is not exactly 1 (with
max size 1 the pre-push entry is evicted). -/
theorem c9_replace_amended :
    (∀ (h : History) (p : String), (h.replace p).1.entries.length = h.entries.length) ∧
    (∀ (h : History) (p q : String), h.Inv → h.maxSize ≠ 1 →
        (((h.push p).1.replace q).1.back).1.currentPath = h.currentPath) := by
  constructor
  · intro h p
    show (h.entries.set h.current ⟨p, none⟩).length = h.entries.length
    exact List.length_set h.entries h.current ⟨p, none⟩
  · intro h p q hInv hm
    obtain ⟨hpos, hgetd⟩ := hist_push_getD_prev h p hInv hm
    rw [hist_replace_back_getD (h.push p).1 q hpos, hgetd]
    rfl

/-- C9 counterexample: with a size limit of 1, back after push and
replace stays on the replaced entry instead of the pre-push path. -/
theorem c9_counterexample :
    ((((History.withMaxSize "/" 1).push "/a").1.replace "/b").1.back).1.currentPath = "/b" ∧
    "/b" ≠ "/" := by decide

/-- Witness for C9 at concrete histories. -/
theorem c9_witness :
    ((History.new "/").replace "/x").1.entries.length = (History.new "/").entries.length ∧
    ((((History.new "/").push "/a").1.replace "/b").1.back).1.currentPath
      = (History.new "/").currentPath :=
  ⟨c9_replace_amended.1 (History.new "/") "/x",
   c9_replace_amended.2 (History.new "/") "/a" "/b" (by decide) (by decide)⟩

/-! ## C2: cache clearing and facade invalidation -/

/-- C2: RouteCache::clear empties both LRU maps, increments the
invalidation counter by exactly one and leaves all hit and miss counters
unchanged; and every facade operation add_route, push, replace, back and
forward replaces the nested cache by its cleared form, so after each of
them both maps are empty and invalidations grew by exactly one. -/
theorem c2_cache_invalidation :
    (∀ cache : RouteCache,
        cache.clear.parentCacheSize = 0 ∧
        cache.clear.childCacheSize = 0 ∧
        cache.clear.stats.invalidations = cache.stats.invalidations + 1 ∧
        cache.clear.stats.parent_hits = cache.stats.parent_hits ∧
        cache.clear.stats.parent_misses = cache.stats.parent_misses ∧
        cache.clear.stats.child_hits = cache.stats.child_hits ∧
        cache.clear.stats.child_misses = cache.stats.child_misses) ∧
    (∀ (g : GlobalRouter) (r : Route), (g.addRoute r).nested_cache = g.nested_cache.clear) ∧
    (∀ (g : GlobalRouter) (p : String), (g.push p).1.nested_cache = g.nested_cache.clear) ∧
    (∀ (g : GlobalRouter) (p : String), (g.replace p).1.nested_cache = g.nested_cache.clear) ∧
    (∀ g : GlobalRouter, g.back.1.nested_cache = g.nested_cache.clear) ∧
    (∀ g : GlobalRouter, g.forward.1.nested_cache = g.nested_cache.clear) ∧
    (∀ (g : GlobalRouter) (p : String),
        (g.push p).1.nested_cache.parentCacheSize = 0 ∧
        (g.push p).1.nested_cache.childCacheSize = 0 ∧
        (g.push p).1.nested_cache.stats.invalidations
          = g.nested_cache.stats.invalidations + 1) :=
  ⟨fun _ => ⟨rfl, rfl, rfl, rfl, rfl, rfl, rfl⟩,
   fun _ _ => rfl, fun _ _ => rfl, fun _ _ => rfl, fun _ => rfl, fun _ => rfl,
   fun _ _ => ⟨rfl, rfl, rfl⟩⟩

/-! ## C1: composite guard evaluation order and short-circuit -/

/-- The await loop returns the result of the first guard whose future
resolves to a non-Allow value, and Allow when there is none. -/
theorem awaitLoop_spec (l : List MGuard) :
    (awaitLoop l).2 = (l.find? (fun g => g.result != .allow)).elim .allow MGuard.result := by
  induction l with
  | nil => rfl
  | cons g rest ih =>
      cases hr : g.result with
      | allow => simp [awaitLoop, hr, List.find?, ih]
      | deny r =>
          simp only [awaitLoop, hr, List.find?]
          rw [show (GuardResult.deny r != GuardResult.allow) = true from rfl]
          simp [hr]
      | redirect t r =>
          simp only [awaitLoop, hr, List.find?]
          rw [show (GuardResult.redirect t r != GuardResult.allow) = true from rfl]
          simp [hr]

/-- C1 (amended): Guards::check sorts its members by descending
priority, invokes check on every member in that order to build the
futures, then awaits them sequentially, stopping at the first non-Allow
result and returning it, and returning Allow when every member allows;
for the [100, 50, 10] composite whose priority-50 member denies, the
composite returns that Deny and never awaits the priority-10 member's
future — but the priority-10 member's check is invoked when its future
is built. -/
theorem c1_guards_check_amended :
    (∀ gs : List MGuard,
        (guardsCheck gs).invoked = sortGuards gs ∧
        (guardsCheck gs).invoked.Sorted guardOrder ∧
        (guardsCheck gs).invoked.Perm gs ∧
        (guardsCheck gs).result =
          ((sortGuards gs).find? (fun g => g.result != .allow)).elim .allow MGuard.result) ∧
    (guardsCheck [⟨0, 100, .allow⟩, ⟨1, 50, .deny "denied"⟩, ⟨2, 10, .allow⟩]).result
      = .deny "denied" ∧
    (guardsCheck [⟨0, 100, .allow⟩, ⟨1, 50, .deny "denied"⟩, ⟨2, 10, .allow⟩]).awaited
      = [⟨0, 100, .allow⟩, ⟨1, 50, .deny "denied"⟩] ∧
    (⟨2, 10, .allow⟩ : MGuard) ∉
      (guardsCheck [⟨0, 100, .allow⟩, ⟨1, 50, .deny "denied"⟩, ⟨2, 10, .allow⟩]).awaited ∧
    (⟨2, 10, .allow⟩ : MGuard) ∈
      (guardsCheck [⟨0, 100, .allow⟩, ⟨1, 50, .deny "denied"⟩, ⟨2, 10, .allow⟩]).invoked := by
  refine ⟨?_, by decide, by decide, by decide, by decide⟩
  intro gs
  refine ⟨rfl, List.sorted_insertionSort guardOrder gs, List.perm_insertionSort guardOrder gs, ?_⟩
  exact awaitLoop_spec (sortGuards gs)

/-- C1 counterexample: in the [100, 50, 10] deny-at-50 composite, the
composite does return the Deny, but the priority-10 member's check is
invoked (its future is built before any await), refuting the claim that
its check is never invoked. -/
theorem c1_counterexample :
    (guardsCheck [⟨0, 100, .allow⟩, ⟨1, 50, .deny "denied"⟩, ⟨2, 10, .allow⟩]).result
      = .deny "denied" ∧
    (⟨2, 10, .allow⟩ : MGuard) ∈
      (guardsCheck [⟨0, 100, .allow⟩, ⟨1, 50, .deny "denied"⟩, ⟨2, 10, .allow⟩]).invoked := by
  decide

/-! ## C6: pattern priority -/

/-- The priority loop from any accumulator: zero on a wildcard, otherwise
the accumulator less ten per Param and five per Optional, saturating. -/
theorem calcPriorityAux_spec (segs : List Segment) (p : Nat) :
    calcPriorityAux p segs =
      if segs.any Segment.isWildcard then 0
      else p - (10 * countParams segs + 5 * countOptionals segs) := by
  induction segs generalizing p with
  | nil => simp [calcPriorityAux, countParams, countOptionals]
  | cons s rest ih =>
      cases s with
      | static t =>
          simp only [calcPriorityAux, ih, countParams, countOptionals, List.any_cons,
            Segment.isWildcard, Segment.isParam, Segment.isOptional, List.filter_cons,
            Bool.false_or, if_neg, Bool.false_eq_true, ite_false]
      | param n c =>
          simp only [calcPriorityAux, ih, countParams, countOptionals, List.any_cons,
            Segment.isWildcard, Segment.isParam, Segment.isOptional, List.filter_cons,
            Bool.false_or, List.length_cons, if_true, Bool.false_eq_true, ite_false]
          split
          · rfl
          · omega
      | optional inner =>
          simp only [calcPriorityAux, ih, countParams, countOptionals, List.any_cons,
            Segment.isWildcard, Segment.isParam, Segment.isOptional, List.filter_cons,
            Bool.false_or, List.length_cons, if_true, Bool.false_eq_true, ite_false]
          split
          · rfl
          · omega
      | wildcard =>
          simp [calcPriorityAux, Segment.isWildcard]

/-- A successfully parsed segment is never an Optional segment. -/
theorem segment_parse_not_optional (s : String) (seg : Segment)
    (h : Segment.parse s = .ok seg) : seg.isOptional = false := by
  unfold Segment.parse at h
  split at h
  · cases h
    rfl
  · split at h
    · split at h
      · split at h
        · cases h
          rfl
        · cases h
      · cases h
        rfl
    · cases h
      rfl

/-- All segments of a successfully collected segment list parse
successfully from some piece, hence none is Optional. -/
theorem parseSegments_not_optional (l : List String) (segs : List Segment)
    (h : RoutePattern.parseSegments l = .ok segs) : ∀ seg ∈ segs, seg.isOptional = false := by
  induction l generalizing segs with
  | nil =>
      unfold RoutePattern.parseSegments at h
      cases h
      intro seg hseg
      cases hseg
  | cons s rest ih =>
      unfold RoutePattern.parseSegments at h
      split at h
      · next sg hparse =>
          split at h
          · next sgs hrest =>
              cases h
              intro seg hseg
              rcases List.mem_cons.mp hseg with rfl | hm
              · exact segment_parse_not_optional s seg hparse
              · exact ih sgs hrest seg hm
          · cases h
      · cases h

/-- A successfully compiled pattern carries the parsed segments and the
computed priority. -/
theorem fromPath_spec (path : String) (pat : RoutePattern)
    (h : RoutePattern.fromPath path = .ok pat) :
    RoutePattern.parseSegments (splitSegs path) = .ok pat.segments ∧
      pat.priority = calculatePriority pat.segments := by
  unfold RoutePattern.fromPath at h
  cases hsegs : RoutePattern.parseSegments (splitSegs path) with
  | ok segs =>
      rw [hsegs] at h
      cases h
      exact ⟨rfl, rfl⟩
  | error e =>
      rw [hsegs] at h
      cases h

/-- C6: the computed pattern priority starts at the baseline 100, loses
10 per Param segment and 5 per Optional segment (saturating, as the u8
subtraction does), and is 0 as soon as a Wildcard is present; for every
pattern compiled from a path that contains k Param segments and no
wildcard, the priority is 100 - 10 k. -/
theorem c6_pattern_priority :
    (∀ segs : List Segment,
        calculatePriority segs =
          if segs.any Segment.isWildcard then 0
          else 100 - (10 * countParams segs + 5 * countOptionals segs)) ∧
    (∀ (path : String) (pat : RoutePattern),
        RoutePattern.fromPath path = .ok pat →
        pat.segments.any Segment.isWildcard = false →
        pat.priority = 100 - 10 * countParams pat.segments) := by
  refine ⟨fun segs => calcPriorityAux_spec segs 100, ?_⟩
  intro path pat hok hnw
  obtain ⟨hsegs, hprio⟩ := fromPath_spec path pat hok
  have hno : countOptionals pat.segments = 0 := by
    unfold countOptionals
    rw [List.length_eq_zero, List.filter_eq_nil_iff]
    intro seg hseg
    simp [parseSegments_not_optional _ _ hsegs seg hseg]
  rw [hprio, calculatePriority, calcPriorityAux_spec, hnw]
  simp [hno]

/-- Witness for C6 at the pattern `/users/:id`. -/
theorem c6_witness :
    RoutePattern.fromPath "/users/:id" =
      .ok ⟨[.static "users", .param "id" none], 90⟩ ∧
    (⟨[.static "users", .param "id" none], 90⟩ : RoutePattern).priority
      = 100 - 10 * countParams [Segment.static "users", .param "id" none] := by
  constructor
  · rfl
  · exact c6_pattern_priority.2 "/users/:id" ⟨[.static "users", .param "id" none], 90⟩
      (by rfl) (by decide)

/-! ## C8: Optional segments never reject a path -/

/-- C8: during matching, an Optional segment never fails the whole match
by itself: when the path is exhausted it consumes nothing; when the value
fails the inner constraint it consumes nothing; and in general the
Optional step either proceeds on the same path position or consumes one
valid value, the continuation always being the rest of the pattern. -/
theorem c8_optional_never_rejects :
    (∀ (inner : Segment) (rest : List Segment) (params : RouteParams),
        RoutePattern.matchSegmentsAux (.optional inner :: rest) [] params =
          RoutePattern.matchSegmentsAux rest [] params) ∧
    (∀ (nm : String) (c : Constraint) (rest : List Segment) (v : String)
        (ps : List String) (params : RouteParams),
        c.validate v = false →
        RoutePattern.matchSegmentsAux (.optional (.param nm (some c)) :: rest) (v :: ps) params
          = RoutePattern.matchSegmentsAux rest (v :: ps) params) ∧
    (∀ (inner : Segment) (rest : List Segment) (paths : List String) (params : RouteParams),
        RoutePattern.matchSegmentsAux (.optional inner :: rest) paths params =
            RoutePattern.matchSegmentsAux rest paths params ∨
          ∃ nm c v ps, inner = .param nm c ∧ paths = v :: ps ∧
            (match c with | some con => con.validate v | none => true) = true ∧
            RoutePattern.matchSegmentsAux (.optional inner :: rest) paths params =
              RoutePattern.matchSegmentsAux rest ps (insertParam nm v params)) := by
  refine ⟨fun inner rest params => rfl, ?_, ?_⟩
  · intro nm c rest v ps params hval
    simp [RoutePattern.matchSegmentsAux, hval]
  · intro inner rest paths params
    cases paths with
    | nil => exact Or.inl rfl
    | cons v ps =>
        cases inner with
        | static t => exact Or.inl rfl
        | optional i => exact Or.inl rfl
        | wildcard => exact Or.inl rfl
        | param nm c =>
            by_cases hv : (match c with | some con => con.validate v | none => true) = true
            · refine Or.inr ⟨nm, c, v, ps, rfl, rfl, hv, ?_⟩
              cases c with
              | none => rfl
              | some con =>
                  simp at hv
                  simp [RoutePattern.matchSegmentsAux, hv]
            · refine Or.inl ?_
              cases c with
              | none => simp at hv
              | some con =>
                  simp at hv
                  simp [RoutePattern.matchSegmentsAux, hv]

/-- Witness for C8: a numeric-constrained optional segment given the
invalid value abc consumes nothing and matching proceeds. -/
theorem c8_witness :
    Constraint.validate .numeric "abc" = false ∧
    RoutePattern.matchSegmentsAux [.optional (.param "id" (some .numeric)), .static "x"]
        ["abc"] [] =
      RoutePattern.matchSegmentsAux [.static "x"] ["abc"] [] :=
  ⟨by decide,
   c8_optional_never_rejects.2.1 "id" .numeric [.static "x"] "abc" [] [] (by decide)⟩

/-! ## C10: segment parsing never yields Optional, and its variants -/

/-- A string whose character list starts with a colon is not the
wildcard token. -/
theorem segment_colon_ne_star (s : String) (rest : List Char)
    (heq : s.data = ':' :: rest) : s ≠ "*" := by
  intro hs
  rw [hs] at heq
  have h1 : ("*" : String).data = ['*'] := rfl
  rw [h1] at heq
  injection heq with hc _
  exact absurd hc (by decide)

/-- Soundness of the panic model: parse only errors on a colon-prefixed
segment containing `<` whose byte slice `rest[pos+1..len-1]` fails —
either no character follows the first `<`, or the final character is not
a single UTF-8 byte. -/
theorem segment_parse_error_sound (s e : String) (h : Segment.parse s = .error e) :
    ∃ rest i, s.data = ':' :: rest ∧ rest.findIdx? (· == '<') = some i ∧
      (rest.drop (i + 1) = [] ∨ rest.getLast?.map Char.utf8Size ≠ some 1) := by
  unfold Segment.parse at h
  split at h
  · cases h
  · split at h
    · next rest heq =>
        split at h
        · next i hfind =>
            split at h
            · cases h
            · next hcond =>
                refine ⟨rest, i, heq, hfind, ?_⟩
                tauto
        · cases h
    · cases h

/-- Completeness of the panic model: on a colon-prefixed segment whose
first `<` has nothing after it, or whose final character occupies more
than one UTF-8 byte, parse errors (the Rust byte slice panics). -/
theorem segment_parse_error_complete (s : String) (rest : List Char) (i : Nat)
    (heq : s.data = ':' :: rest) (hfind : rest.findIdx? (· == '<') = some i)
    (hbad : rest.drop (i + 1) = [] ∨ rest.getLast?.map Char.utf8Size ≠ some 1) :
    ∃ e, Segment.parse s = .error e := by
  cases hp : Segment.parse s with
  | error e => exact ⟨e, rfl⟩
  | ok seg =>
      exfalso
      unfold Segment.parse at hp
      rw [if_neg (segment_colon_ne_star s rest heq)] at hp
      split at hp
      · next rest2 heq2 =>
          have hr : rest2 = rest := by
            rw [heq] at heq2
            injection heq2 with _ h2
            exact h2.symm
          subst hr
          split at hp
          · next i2 hfind2 =>
              have hi : i2 = i := Option.some.inj (hfind2.symm.trans hfind)
              subst hi
              split at hp
              · next hcond =>
                  rcases hbad with hb | hb
                  · exact hcond.1 hb
                  · exact hb hcond.2
              · cases hp
          · next hfindnone =>
              rw [hfind] at hfindnone
              cases hfindnone
      · next hne => exact hne rest heq

/-- On a colon-prefixed segment containing `<`, a successful parse
returns the Param whose name is the text before the first `<` and whose
constraint is parsed from the characters after the first `<` up to but
excluding the final one. -/
theorem segment_parse_constraint_form (s : String) (rest : List Char) (i : Nat)
    (seg : Segment) (heq : s.data = ':' :: rest)
    (hfind : rest.findIdx? (· == '<') = some i)
    (hp : Segment.parse s = .ok seg) :
    seg = .param ⟨rest.take i⟩
      (some (Constraint.parse ⟨(rest.drop (i + 1)).dropLast⟩)) := by
  unfold Segment.parse at hp
  rw [if_neg (segment_colon_ne_star s rest heq)] at hp
  split at hp
  · next rest2 heq2 =>
      have hr : rest2 = rest := by
        rw [heq] at heq2
        injection heq2 with _ h2
        exact h2.symm
      subst hr
      split at hp
      · next i2 hfind2 =>
          have hi : i2 = i := Option.some.inj (hfind2.symm.trans hfind)
          subst hi
          split at hp
          · injection hp with hp2
            exact hp2.symm
          · cases hp
      · next hfindnone =>
          rw [hfind] at hfindnone
          cases hfindnone
  · next hne => exact absurd heq (hne rest)

/-- On a colon-prefixed segment without `<`, parse returns the Param of
the whole remainder with no constraint. -/
theorem segment_parse_noconstraint_form (s : String) (rest : List Char)
    (heq : s.data = ':' :: rest) (hfindnone : rest.findIdx? (· == '<') = none) :
    Segment.parse s = .ok (.param ⟨rest⟩ none) := by
  cases hp : Segment.parse s with
  | error e =>
      exfalso
      obtain ⟨rest2, i, heq2, hfind2, _⟩ := segment_parse_error_sound s e hp
      have hr : rest2 = rest := by
        rw [heq] at heq2
        injection heq2 with _ h2
        exact h2.symm
      subst hr
      rw [hfindnone] at hfind2
      cases hfind2
  | ok seg =>
      unfold Segment.parse at hp
      rw [if_neg (segment_colon_ne_star s rest heq)] at hp
      split at hp
      · next rest2 heq2 =>
          have hr : rest2 = rest := by
            rw [heq] at heq2
            injection heq2 with _ h2
            exact h2.symm
          subst hr
          split at hp
          · next i2 hfind2 =>
              rw [hfindnone] at hfind2
              cases hfind2
          · injection hp with h2
            rw [← h2]
      · next hne => exact absurd heq (hne rest)

/-- C10 (amended): Segment::parse returns Wildcard exactly on the input
star; whenever it returns, it returns a Param exactly when the input
starts with a colon — with the constraint, when a `<` is present, parsed
from the characters after the first `<` up to but excluding the final
character; it panics exactly when the input starts with a colon,
contains `<`, and the byte slice `rest[pos+1..len-1]` fails: either no
character follows the first `<`, or the final character is not a single
UTF-8 byte; it otherwise returns Static; it never returns an Optional
segment, and from_path, when it returns, never produces a pattern
containing an Optional segment. -/
theorem c10_segment_parse_amended :
    (∀ s : String, Segment.parse s = .ok .wildcard ↔ s = "*") ∧
    (∀ (s : String) (seg : Segment), Segment.parse s = .ok seg →
        (seg.isParam = true ↔ strStarts s ":" = true)) ∧
    (∀ (s : String) (seg : Segment), Segment.parse s = .ok seg → seg.isOptional = false) ∧
    (∀ (s : String) (seg : Segment), Segment.parse s = .ok seg →
        strStarts s ":" = false → s ≠ "*" → seg = .static s) ∧
    (∀ (s e : String), Segment.parse s = .error e →
        ∃ rest i, s.data = ':' :: rest ∧ rest.findIdx? (· == '<') = some i ∧
          (rest.drop (i + 1) = [] ∨ rest.getLast?.map Char.utf8Size ≠ some 1)) ∧
    (∀ (s : String) (rest : List Char) (i : Nat),
        s.data = ':' :: rest → rest.findIdx? (· == '<') = some i →
        (rest.drop (i + 1) = [] ∨ rest.getLast?.map Char.utf8Size ≠ some 1) →
        ∃ e, Segment.parse s = .error e) ∧
    (∀ (s : String) (rest : List Char) (i : Nat) (seg : Segment),
        s.data = ':' :: rest → rest.findIdx? (· == '<') = some i →
        Segment.parse s = .ok seg →
        seg = .param ⟨rest.take i⟩
          (some (Constraint.parse ⟨(rest.drop (i + 1)).dropLast⟩))) ∧
    (∀ (s : String) (rest : List Char),
        s.data = ':' :: rest → rest.findIdx? (· == '<') = none →
        Segment.parse s = .ok (.param ⟨rest⟩ none)) ∧
    (∀ (path : String) (pat : RoutePattern), RoutePattern.fromPath path = .ok pat →
        ∀ seg ∈ pat.segments, seg.isOptional = false) := by
  refine ⟨?_, ?_, segment_parse_not_optional, ?_, segment_parse_error_sound,
    segment_parse_error_complete, segment_parse_constraint_form,
    segment_parse_noconstraint_form, ?_⟩
  · intro s
    constructor
    · intro h
      unfold Segment.parse at h
      split at h
      · assumption
      · split at h
        · split at h
          · split at h
            · cases h
            · cases h
          · cases h
        · cases h
    · intro h
      rw [h]
      rfl
  · intro s seg h
    unfold Segment.parse at h
    split at h
    · next hs =>
        cases h
        rw [hs]
        constructor
        · intro hp
          cases hp
        · intro hp
          cases hp
    · split at h
      · next rest heq =>
          have hcol : strStarts s ":" = true := by
            simp [strStarts, heq, List.isPrefixOf]
          split at h
          · split at h
            · cases h
              simp [Segment.isParam, hcol]
            · cases h
          · cases h
            simp [Segment.isParam, hcol]
      · next hne =>
          cases h
          constructor
          · intro hp
            cases hp
          · intro hp
            exfalso
            unfold strStarts at hp
            cases hd : s.data with
            | nil => rw [hd] at hp; cases hp
            | cons c cs =>
                rw [hd] at hp
                simp [List.isPrefixOf] at hp
                exact hne cs (by rw [hd, ← hp])
  · intro s seg h hcol hstar
    unfold Segment.parse at h
    split at h
    · next hs => exact absurd hs hstar
    · split at h
      · next rest heq =>
          exfalso
          rw [show strStarts s ":" = true from by simp [strStarts, heq, List.isPrefixOf]] at hcol
          cases hcol
      · cases h
        rfl
  · intro path pat hok seg hseg
    obtain ⟨hsegs, _⟩ := fromPath_spec path pat hok
    exact parseSegments_not_optional _ _ hsegs seg hseg

/-- C10 counterexample: the input `:id<` starts with a colon but parse
panics on it (the byte slice `rest[pos+1..len-1]` starts past its end),
so parse does not return a Param there. -/
theorem c10_counterexample :
    strStarts ":id<" ":" = true ∧ (Segment.parse ":id<").isOk = false := by
  decide

/-- Witness for C10 on concrete segments, including the char-boundary
panic where the final character is the two-byte é. -/
theorem c10_witness :
    Segment.parse "*" = .ok .wildcard ∧
    (Segment.parse ":id").isOk = true ∧
    ((Segment.parse ":id").toOption.getD (.static "")).isParam = true ∧
    (Segment.parse ":a<é").isOk = false ∧
    Segment.parse ":id<abc>" =
      .ok (.param "id" (some (Constraint.parse "abc"))) := by
  refine ⟨(c10_segment_parse_amended.1 "*").mpr rfl, by decide, ?_, ?_, ?_⟩
  · have h := (c10_segment_parse_amended.2.1 ":id" (.param "id" none) (by rfl)).mpr (by decide)
    simpa using h
  · obtain ⟨e, he⟩ := c10_segment_parse_amended.2.2.2.2.2.1 ":a<é" ['a', '<', 'é'] 1
      rfl (by decide) (by decide)
    rw [he]
    rfl
  · have h := c10_segment_parse_amended.2.2.2.2.2.2.1 ":id<abc>"
      ['i', 'd', '<', 'a', 'b', 'c', '>'] 2 (.param "id" (some (Constraint.parse "abc")))
      rfl (by decide) (by rfl)
    rfl

/-! ## C4: nested child resolution -/

/-- The index-route loop returns the first candidate passing the index
test, paired with the unchanged params. -/
theorem findIndexRoute_spec (children : List Route) (params : RouteParams) :
    findIndexRoute children params =
      (children.find? indexChildTest).map (fun child => (child, params)) := by
  induction children with
  | nil => rfl
  | cons child rest ih =>
      unfold findIndexRoute
      by_cases hc : (trimStartChar '/' child.path = "" ∨ trimStartChar '/' child.path = "/" ∨
          trimStartChar '/' child.path = "index")
      · rw [if_pos hc]
        have ht : indexChildTest child = true := decide_eq_true hc
        simp [List.find?, ht]
      · rw [if_neg hc]
        have ht : indexChildTest child = false := decide_eq_false hc
        simp [List.find?, ht, ih]

/-- The candidate scan returns the first candidate whose trimmed path is
the first suffix segment or a parameter child, with the parameter bound
into a copy of the parent params. -/
theorem resolveChildLoop_spec (firstSegment : String) (params : RouteParams)
    (children : List Route) :
    resolveChildLoop firstSegment params children =
      (children.find? (childScanTest firstSegment)).map
        (fun child => (child, scanBind firstSegment params child)) := by
  induction children with
  | nil => rfl
  | cons child rest ih =>
      unfold resolveChildLoop
      by_cases hc : (trimStartChar '/' child.path = firstSegment ∨
          strStarts (trimStartChar '/' child.path) ":" = true)
      · rw [if_pos hc]
        have ht : childScanTest firstSegment child = true := decide_eq_true hc
        simp only [List.find?, ht, Option.map_some]
        unfold scanBind
        rfl
      · rw [if_neg hc]
        have ht : childScanTest firstSegment child = false := decide_eq_false hc
        simp [List.find?, ht, ih]

/-- C4: resolve_child_route selects the named-outlet candidates when an
outlet name is given (None when absent) and the default children
otherwise; fails on an empty candidate list and when the current path is
not under the parent prefix; for an empty remaining suffix it returns
the first index candidate with the parent params unchanged; otherwise it
scans the candidates for the first static match on the first suffix
segment or leading-colon parameter child, binding the parameter into a
copy of the parent params, and fails when no candidate matches. -/
theorem c4_resolve_child_route :
    (∀ (parent : Route) (cp : String) (params : RouteParams) (n : String),
        parent.getNamedChildren n = none →
        resolveChildRoute parent cp params (some n) = none) ∧
    (∀ (parent : Route) (cp : String) (params : RouteParams) (outlet : Option String)
        (cs : List Route), selectChildren parent outlet = some cs → cs = [] →
        resolveChildRoute parent cp params outlet = none) ∧
    (∀ (parent : Route) (cp : String) (params : RouteParams) (outlet : Option String)
        (cs : List Route), selectChildren parent outlet = some cs → cs ≠ [] →
        strStarts (trimStartChar '/' cp) (trimStartChar '/' (trimEndChar '/' parent.path))
          = false →
        resolveChildRoute parent cp params outlet = none) ∧
    (∀ (parent : Route) (cp : String) (params : RouteParams) (outlet : Option String)
        (cs : List Route), selectChildren parent outlet = some cs → cs ≠ [] →
        strStarts (trimStartChar '/' cp) (trimStartChar '/' (trimEndChar '/' parent.path))
          = true →
        remainingAfterParent (trimEndChar '/' parent.path) (trimStartChar '/' cp) = "" →
        resolveChildRoute parent cp params outlet =
          (cs.find? indexChildTest).map (fun child => (child, params))) ∧
    (∀ (parent : Route) (cp : String) (params : RouteParams) (outlet : Option String)
        (cs : List Route), selectChildren parent outlet = some cs → cs ≠ [] →
        strStarts (trimStartChar '/' cp) (trimStartChar '/' (trimEndChar '/' parent.path))
          = true →
        remainingAfterParent (trimEndChar '/' parent.path) (trimStartChar '/' cp) ≠ "" →
        splitSegs (remainingAfterParent (trimEndChar '/' parent.path) (trimStartChar '/' cp))
          ≠ [] →
        resolveChildRoute parent cp params outlet =
          (cs.find? (childScanTest
            ((splitSegs (remainingAfterParent (trimEndChar '/' parent.path)
              (trimStartChar '/' cp))).headD ""))).map
            (fun child => (child,
              scanBind ((splitSegs (remainingAfterParent (trimEndChar '/' parent.path)
                (trimStartChar '/' cp))).headD "") params child))) := by
  refine ⟨?_, ?_, ?_, ?_, ?_⟩
  · intro parent cp params n hn
    unfold resolveChildRoute selectChildren
    dsimp only
    rw [hn]
  · intro parent cp params outlet cs hsel hnil
    subst hnil
    unfold resolveChildRoute
    rw [hsel]
    rfl
  · intro parent cp params outlet cs hsel hne hnp
    unfold resolveChildRoute
    rw [hsel]
    cases cs with
    | nil => exact absurd rfl hne
    | cons c rest =>
        dsimp only
        rw [if_neg (by simp : ¬(c :: rest).isEmpty = true), if_pos (by simp [hnp])]
  · intro parent cp params outlet cs hsel hne hsp hrem
    unfold resolveChildRoute
    rw [hsel]
    cases cs with
    | nil => exact absurd rfl hne
    | cons c rest =>
        dsimp only
        rw [if_neg (by simp : ¬(c :: rest).isEmpty = true),
          if_neg (by simp [hsp]), if_pos hrem]
        exact findIndexRoute_spec (c :: rest) params
  · intro parent cp params outlet cs hsel hne hsp hrem hseg
    unfold resolveChildRoute
    rw [hsel]
    cases cs with
    | nil => exact absurd rfl hne
    | cons c rest =>
        dsimp only
        rw [if_neg (by simp : ¬(c :: rest).isEmpty = true),
          if_neg (by simp [hsp]), if_neg hrem,
          if_neg (by simpa [List.isEmpty_iff] using hseg)]
        exact resolveChildLoop_spec _ params (c :: rest)

/-- Witness for C4: resolving `/dashboard/analytics` under the demo
parent yields the analytics child by the first-segment scan. -/
theorem c4_witness :
    resolveChildRoute dashboardNode "/dashboard/analytics" [] none =
      ((dashboardNode.children.find? (childScanTest "analytics")).map
        (fun child => (child, scanBind "analytics" [] child))) ∧
    resolveChildRoute dashboardNode "/dashboard/analytics" [] none =
      some (analyticsNode, []) := by
  have h := c4_resolve_child_route.2.2.2.2 dashboardNode "/dashboard/analytics" []
    none dashboardNode.children rfl (by simp [dashboardNode, Route.children])
    (by decide) (by decide) (by decide)
  constructor
  · simpa using h
  · rw [show ((splitSegs (remainingAfterParent (trimEndChar '/' dashboardNode.path)
      (trimStartChar '/' "/dashboard/analytics"))).headD "") = "analytics" from by decide] at h
    rw [h]
    rfl

/-! ## C5: deepest outlet owner search -/

/-- One step of the DFS list loop. -/
theorem findParentList_cons_eq (r : Route) (rest : List Route) (cp acc : String) :
    findParentList (r :: rest) cp acc =
      match findParentOne r cp acc with
      | some found => some found
      | none => findParentList rest cp acc := by
  rw [findParentList.eq_def]

/-- A childless node, or one whose subtree does not contain the current
path, is skipped. -/
theorem findParentOne_skip (r : Route) (cp acc : String)
    (h : r.children.isEmpty = true ∨
      isUnderPath (trimEndChar '/' (trimStartChar '/' cp))
        (fullRoutePath acc (routeSeg r)) = false) :
    findParentOne r cp acc = none := by
  rw [findParentOne.eq_def]
  dsimp only
  rcases h with hemp | hund
  · rw [if_pos hemp]
  · by_cases hemp : r.children.isEmpty = true
    · rw [if_pos hemp]
    · rw [if_neg hemp, if_neg (by simp [hund])]

/-- Children are searched first: a result from the subtree is returned
as is. -/
theorem findParentOne_deeper (r : Route) (cp acc : String) (d : Route)
    (hne : r.children.isEmpty = false)
    (hund : isUnderPath (trimEndChar '/' (trimStartChar '/' cp))
      (fullRoutePath acc (routeSeg r)) = true)
    (hrec : findParentList r.children cp (fullRoutePath acc (routeSeg r)) = some d) :
    findParentOne r cp acc = some d := by
  rw [findParentOne.eq_def]
  dsimp only
  rw [if_neg (by simp [hne]), if_pos hund, hrec]

/-- When no deeper owner exists but a direct child owns the current
path, the node itself is returned. -/
theorem findParentOne_fallback (r : Route) (cp acc : String)
    (hne : r.children.isEmpty = false)
    (hund : isUnderPath (trimEndChar '/' (trimStartChar '/' cp))
      (fullRoutePath acc (routeSeg r)) = true)
    (hrec : findParentList r.children cp (fullRoutePath acc (routeSeg r)) = none)
    (hany : r.children.any (childMatches (trimEndChar '/' (trimStartChar '/' cp))
      (fullRoutePath acc (routeSeg r))) = true) :
    findParentOne r cp acc = some r := by
  rw [findParentOne.eq_def]
  dsimp only
  rw [if_neg (by simp [hne]), if_pos hund, hrec, if_pos hany]

/-- The size of the child list is below the size of the node. -/
theorem route_sizeOf_children_lt (r : Route) : sizeOf r.children < sizeOf r := by
  cases r with
  | mk p n c nc =>
      simp [Route.children]
      omega

/-- Strong-induction core: any route the DFS returns has at least one
child. -/
theorem findParent_qualify (n : Nat) :
    (∀ (r : Route) (cp acc : String) (x : Route), sizeOf r ≤ n →
      findParentOne r cp acc = some x → x.children ≠ []) ∧
    (∀ (routes : List Route) (cp acc : String) (x : Route), sizeOf routes ≤ n →
      findParentList routes cp acc = some x → x.children ≠ []) := by
  induction n using Nat.strong_induction_on with
  | _ n ih =>
      constructor
      · intro r cp acc x hsz hone
        rw [findParentOne.eq_def] at hone
        dsimp only at hone
        by_cases hemp : r.children.isEmpty = true
        · rw [if_pos hemp] at hone
          cases hone
        · rw [if_neg hemp] at hone
          by_cases hund : isUnderPath (trimEndChar '/' (trimStartChar '/' cp))
              (fullRoutePath acc (routeSeg r)) = true
          · rw [if_pos hund] at hone
            cases hrec : findParentList r.children cp (fullRoutePath acc (routeSeg r)) with
            | some deeper =>
                rw [hrec] at hone
                injection hone with hh
                subst hh
                have hlt := route_sizeOf_children_lt r
                exact (ih (sizeOf r.children) (by omega)).2 r.children cp
                  (fullRoutePath acc (routeSeg r)) deeper (le_refl _) hrec
            | none =>
                rw [hrec] at hone
                by_cases hany : r.children.any
                    (childMatches (trimEndChar '/' (trimStartChar '/' cp))
                      (fullRoutePath acc (routeSeg r))) = true
                · rw [if_pos hany] at hone
                  cases hone
                  simpa [List.isEmpty_iff] using hemp
                · rw [if_neg hany] at hone
                  by_cases hex : (trimEndChar '/' (trimStartChar '/' cp)
                      = fullRoutePath acc (routeSeg r) ∧ acc = "")
                  · rw [if_pos hex] at hone
                    cases hone
                    simpa [List.isEmpty_iff] using hemp
                  · rw [if_neg hex] at hone
                    cases hone
          · rw [if_neg hund] at hone
            cases hone
      · intro routes cp acc x hsz hlist
        cases routes with
        | nil =>
            rw [findParentList.eq_def] at hlist
            cases hlist
        | cons r rest =>
            rw [findParentList_cons_eq] at hlist
            have hcons : sizeOf (r :: rest) = 1 + sizeOf r + sizeOf rest := by
              simp
            have hszr : sizeOf r < n := by omega
            have hszrest : sizeOf rest < n := by omega
            cases hone : findParentOne r cp acc with
            | some found =>
                rw [hone] at hlist
                injection hlist with hh
                subst hh
                exact (ih (sizeOf r) hszr).1 r cp acc found (le_refl _) hone
            | none =>
                rw [hone] at hlist
                exact (ih (sizeOf rest) hszrest).2 rest cp acc x (le_refl _) hlist

/-- C5: the deepest-outlet-owner search is a depth-first search that, at
each node, computes the accumulated full path and tests whether the
current path lies under the subtree; it skips nodes without children or
whose subtree does not contain the current path; it prefers a result
found among the children over the node itself; every returned node has
at least one child, and nothing is returned when no node has children. -/
theorem c5_find_parent_route :
    (∀ (routes : List Route) (cp : String) (x : Route),
        findParentRouteForPath routes cp = some x → x.children ≠ []) ∧
    (∀ (r : Route) (rest : List Route) (cp acc : String),
        (r.children = [] ∨
          isUnderPath (trimEndChar '/' (trimStartChar '/' cp))
            (fullRoutePath acc (routeSeg r)) = false) →
        findParentList (r :: rest) cp acc = findParentList rest cp acc) ∧
    (∀ (r : Route) (rest : List Route) (cp acc : String) (d : Route),
        r.children ≠ [] →
        isUnderPath (trimEndChar '/' (trimStartChar '/' cp))
          (fullRoutePath acc (routeSeg r)) = true →
        findParentList r.children cp (fullRoutePath acc (routeSeg r)) = some d →
        findParentList (r :: rest) cp acc = some d) ∧
    (∀ (r : Route) (rest : List Route) (cp acc : String),
        r.children ≠ [] →
        isUnderPath (trimEndChar '/' (trimStartChar '/' cp))
          (fullRoutePath acc (routeSeg r)) = true →
        findParentList r.children cp (fullRoutePath acc (routeSeg r)) = none →
        r.children.any (childMatches (trimEndChar '/' (trimStartChar '/' cp))
          (fullRoutePath acc (routeSeg r))) = true →
        findParentList (r :: rest) cp acc = some r) ∧
    (∀ (routes : List Route) (cp acc : String),
        (∀ r ∈ routes, r.children = []) → findParentList routes cp acc = none) := by
  refine ⟨?_, ?_, ?_, ?_, ?_⟩
  · intro routes cp x h
    exact (findParent_qualify (sizeOf routes)).2 routes cp "" x (le_refl _) h
  · intro r rest cp acc h
    rw [findParentList_cons_eq,
      findParentOne_skip r cp acc (by
        rcases h with h1 | h2
        · exact Or.inl (by simp [h1])
        · exact Or.inr h2)]
  · intro r rest cp acc d hne hund hrec
    rw [findParentList_cons_eq,
      findParentOne_deeper r cp acc d (by simpa [List.isEmpty_iff] using hne) hund hrec]
  · intro r rest cp acc hne hund hrec hany
    rw [findParentList_cons_eq,
      findParentOne_fallback r cp acc (by simpa [List.isEmpty_iff] using hne) hund hrec hany]
  · intro routes cp acc hall
    induction routes with
    | nil => rw [findParentList.eq_def]
    | cons r rest ih =>
        rw [findParentList_cons_eq,
          findParentOne_skip r cp acc (Or.inl (by simp [hall r (by simp)]))]
        exact ih (fun q hq => hall q (by simp [hq]))

/-- Witness for C5: in the two-level demo tree the search returns the
deeper settings node, not the top-level dashboard node. -/
theorem c5_witness :
    findParentRouteForPath [dashboardTreeNode] "/dashboard/settings/advanced"
      = some settingsNode := by
  have h0 : findParentList [advancedNode] "/dashboard/settings/advanced"
      (fullRoutePath "dashboard" (routeSeg settingsNode)) = none :=
    c5_find_parent_route.2.2.2.2 [advancedNode] _ _ (by
      intro q hq
      rw [List.mem_singleton.mp hq]
      rfl)
  have h1 : findParentList [settingsNode] "/dashboard/settings/advanced" "dashboard"
      = some settingsNode :=
    c5_find_parent_route.2.2.2.1 settingsNode [] "/dashboard/settings/advanced" "dashboard"
      (by simp [settingsNode, Route.children]) (by decide) h0 (by decide)
  exact c5_find_parent_route.2.2.1 dashboardTreeNode [] "/dashboard/settings/advanced" ""
    settingsNode (by simp [dashboardTreeNode, Route.children]) (by decide) h1

end GpuiRouter
